import Mathlib

/-!
# Verification of `ligo.skymap.bayestar.ez_emcee`

A shallow embedding of the adaptive-convergence MCMC controller in
`src/ligo/skymap/bayestar/ez_emcee.py`, together with theorems settling the
specification claims about it.

The embedding models:

* the hard box prior `logp` (lines 25-26 of the source),
* the adaptive sampling loop of `ez_emcee` (lines 113-135): its guard, the
  progress-total revision, the ACL (autocorrelation-length) update, and the
  geometric growth of the round size `nsteps`,
* the final thinning and flattening of the coldest-temperature chain
  (lines 137-139),
* the setup phase that runs before any sampling (lines 90-110),
* the external `ptemcee.Sampler` contract (vendored in the repository but not
  present under `src/`), modelled from the specification.

Real numbers appearing in the Python code are modelled by `ℚ`; the IEEE
non-finite values (NaN, infinities) that can arise as autocorrelation
estimates are modelled by `Option`: `none` stands for a non-finite estimate,
`some q` for a finite one.  This is faithful because the source only ever
branches on `np.isfinite`.
-/

namespace LigoSkymap

/-! ## The box prior `logp` (source lines 25-26)

`def logp(x, lo, hi): return np.where(((x >= lo) & (x <= hi)).all(-1), 0.0, -np.inf)`

The value of a log-density is either a finite rational or `-inf`. -/

/-- The value of the log-prior at one point: either a finite value or
negative infinity, the two outcomes `np.where` can produce here. -/
inductive LogPVal where
  | val (q : ℚ)
  | negInf
  deriving DecidableEq, Repr

/-- `((x >= lo) & (x <= hi)).all(-1)` on one row: every coordinate of `x`
lies inclusively between the corresponding bounds.  Elementwise over the
last axis, as numpy broadcasting does for equal-length operands. -/
def allInBounds : List ℚ → List ℚ → List ℚ → Bool
  | x :: xs, l :: ls, h :: hs =>
      (decide (l ≤ x) && decide (x ≤ h)) && allInBounds xs ls hs
  | _, _, _ => true

/-- `logp` on a single parameter vector: `np.where(cond, 0.0, -np.inf)`. -/
def logpRow (x lo hi : List ℚ) : LogPVal :=
  if allInBounds x lo hi then .val 0 else .negInf

/-- `logp` on a batch: the condition collapses only the last axis, so the
result is the row-wise map of `logpRow`. -/
def logp (x : List (List ℚ)) (lo hi : List ℚ) : List LogPVal :=
  x.map fun row => logpRow row lo hi

/-! ## The adaptive sampling loop (source lines 97, 113-135)

```
nsteps = 64
...
sampler.reset()
acl = np.nan
while not np.isfinite(acl) or sampler.time < nindep * acl:
    progress.total = nburnin + max(sampler.time + nsteps, nindep * acl)
    for pos, _, _ in sampler.sample(pos, iterations=nsteps):
        progress.update()
    acl = sampler.get_autocorr_time()[0].max()
    if np.isfinite(acl):
        acl = max(1, int(np.ceil(acl)))
    ...
    nsteps *= 2
```

The loop state carries `sampler.time`, `nsteps`, the current ACL value and
`progress.total`.  The raw autocorrelation estimate returned by
`sampler.get_autocorr_time()[0].max()` is abstracted as an oracle
`est : ℕ → Option ℚ`, a function of the accumulated post-burn-in iteration
count (which, within one run, determines the chain history the estimate is
computed from); `none` models a non-finite (NaN) estimate. -/

/-- The mutable state of one adaptive round:  `time` is `sampler.time`
(post-burn-in iterations taken), `nsteps` the size of the next round, `acl`
the current ACL value (`none` = non-finite), `total` the progress bar's
total. -/
structure LoopState where
  time : ℕ
  nsteps : ℕ
  acl : Option ℕ
  total : ℕ
  deriving DecidableEq, Repr

/-- Python's builtin `max(a, b)` when `b` may be NaN (modelled `none`):
all comparisons against NaN are false, so `max` keeps its first argument. -/
def pyMax (a : ℕ) (b : Option ℕ) : ℕ :=
  match b with
  | none => a
  | some q => max a q

/-- The loop guard `not np.isfinite(acl) or sampler.time < nindep * acl`. -/
def loopCond (nindep : ℕ) (s : LoopState) : Bool :=
  match s.acl with
  | none => true
  | some a => decide (s.time < nindep * a)

/-- `np.ceil` on a rational, computed through `Rat.floor` so that it
evaluates inside the kernel; `npCeil_eq_ceil` below identifies it with
Mathlib's `Int.ceil`. -/
def npCeil (q : ℚ) : ℤ := -(Rat.floor (-q))

/-- The ACL stored after one recomputation:
`acl = estimate; if np.isfinite(acl): acl = max(1, int(np.ceil(acl)))`.
A non-finite estimate is kept as-is (`none`); a finite one is rounded up and
floored at 1, which makes it a positive integer, represented in `ℕ`
(`Int.toNat` is exact here since `max 1 ⌈q⌉ ≥ 1`). -/
def aclUpdate (est : Option ℚ) : Option ℕ :=
  match est with
  | none => none
  | some q => some (max 1 (npCeil q)).toNat

/-- One iteration of the adaptive loop body (source lines 115-135): revise
the progress total from the *previous* ACL, advance the chain by `nsteps`
iterations, recompute the ACL from the enlarged chain, and double `nsteps`. -/
def loopBody (nburnin nindep : ℕ) (est : ℕ → Option ℚ) (s : LoopState) :
    LoopState :=
  { time := s.time + s.nsteps
    nsteps := s.nsteps * 2
    acl := aclUpdate (est (s.time + s.nsteps))
    total := nburnin + pyMax (s.time + s.nsteps) (s.acl.map fun a => nindep * a) }

/-- Fuel-bounded execution of the `while` loop: as long as the guard holds,
run the body; return the state unchanged once the guard fails. -/
def loopRun (nburnin nindep : ℕ) (est : ℕ → Option ℚ) :
    ℕ → LoopState → LoopState
  | 0, s => s
  | n + 1, s =>
      if loopCond nindep s then loopRun nburnin nindep est n (loopBody nburnin nindep est s)
      else s

/-- The state right after `sampler.reset(); acl = np.nan` with `nsteps = 64`
and the initial progress total `nburnin + nindep * nsteps` from line 99. -/
def initLoopState (nburnin nindep : ℕ) : LoopState :=
  { time := 0, nsteps := 64, acl := none, total := nburnin + nindep * 64 }

/-! ## Thinning and flattening (source lines 137-139)

```
chain = sampler.chain[0, :, ::acl, :]
s = chain.shape
return chain.reshape((-1, s[-1]))
```

The coldest-temperature chain is a list over walkers of lists over
iterations of parameter rows.  `[::k]` keeps indices `0, k, 2k, …`;
`reshape((-1, ndim))` concatenates the walkers in C order. -/

/-- Helper for `thinEvery`: keep the element when the skip counter is 0
(then reset it to `k - 1`), and skip while counting down otherwise. -/
def thinAux (k : ℕ) : ℕ → List α → List α
  | _, [] => []
  | 0, a :: l => a :: thinAux k (k - 1) l
  | c + 1, _ :: l => thinAux k c l

/-- numpy's `[::k]` slice on one axis: keep the elements at indices
`0, k, 2k, …` (for a positive step `k`). -/
def thinEvery (k : ℕ) (l : List α) : List α := thinAux k 0 l

/-- `sampler.chain[0, :, ::acl, :]` followed by `reshape((-1, ndim))`:
thin each walker's iteration axis and concatenate the walkers. -/
def extractChain (coldChain : List (List (List ℚ))) (acl : ℕ) :
    List (List ℚ) :=
  (coldChain.map (thinEvery acl)).flatten

/-! ## The setup phase (source lines 90-110)

```
lo = np.asarray(lo); hi = np.asarray(hi)
ndim = len(lo)
if nwalkers is None: nwalkers = 4 * ndim
nsteps = 64
with tqdm(total=nburnin + nindep * nsteps) as progress:
    sampler = Sampler(...)
    pos = np.random.uniform(lo, hi, (ntemps, nwalkers, ndim))
```

No configuration validation appears in this code.  The only operation that
can fail before sampling begins is the broadcast in `np.random.uniform`:
with output shape `(ntemps, nwalkers, ndim)` where `ndim = len(lo)`, numpy
raises unless `len(hi)` is `ndim` or 1.  `nindep` and `nburnin` are only
used arithmetically (in the tqdm total), where any integer is accepted. -/

/-- Result of the setup phase: the inferred dimension, the walker count and
the initial progress total. -/
structure SetupResult where
  ndim : ℕ
  nwalkers : ℕ
  total : ℤ
  deriving DecidableEq, Repr

/-- The setup phase of `ez_emcee` before any sampling (source lines
90-110): infer `ndim` from `lo`, default `nwalkers`, set the initial
progress total, and draw the initial ensemble — which raises a numpy
broadcast error exactly when `hi` cannot broadcast against shape `ndim`.
`nindep` and `nburnin` are taken in `ℤ` because nothing here restricts
their sign. -/
def ezSetup (nindep nburnin : ℤ) (lo hi : List ℚ) (nwalkers : Option ℕ) :
    Except String SetupResult :=
  let ndim := lo.length
  let nw := match nwalkers with
    | none => 4 * ndim
    | some w => w
  if hi.length = ndim ∨ hi.length = 1 then
    .ok { ndim := ndim, nwalkers := nw, total := nburnin + nindep * 64 }
  else
    .error "ValueError: operands could not be broadcast together"

/-! ## The external sampler (spec-modelled)

`ez_emcee` drives `ligo.skymap.bayestar.ptemcee.Sampler`, code of this
repository that is not under `src/`.  Its contract is modelled from §6 of
the specification. -/

/-- Modelled from the spec: the external `ptemcee.Sampler` handle (§6),
whose source is vendored in the repository but missing from `src/`.  It
owns the current ensemble position (abstract type `σ`), the retained
history of positions, `time` — "iterations taken since last reset" — and
internal acceptance counters. -/
structure PSampler (σ : Type) where
  pos : σ
  history : List σ
  time : ℕ
  naccepted : ℕ
  deriving DecidableEq, Repr

/-- Modelled from the spec: one iteration of `sampler.sample(...)` (§6):
advance the ensemble by the (abstract) transition kernel `step`, count
acceptances via the abstract `acc`, and retain the new position in the
history only when `storechain` is set.  `time` advances every iteration. -/
def sampleStep (step : σ → σ) (acc : σ → ℕ) (storechain : Bool)
    (s : PSampler σ) : PSampler σ :=
  let p := step s.pos
  { pos := p
    history := if storechain then s.history ++ [p] else s.history
    time := s.time + 1
    naccepted := s.naccepted + acc p }

/-- Modelled from the spec: `sampler.sample(pos, iterations=n, ...)` run to
exhaustion — `n` sequential iterations of `sampleStep`. -/
def sampleN (step : σ → σ) (acc : σ → ℕ) (storechain : Bool) :
    ℕ → PSampler σ → PSampler σ
  | 0, s => s
  | n + 1, s => sampleN step acc storechain n (sampleStep step acc storechain s)

/-- Modelled from the spec: `sampler.reset()` (§6) "clears accumulated
history and internal counters without discarding the current ensemble
position". -/
def samplerReset (s : PSampler σ) : PSampler σ :=
  { pos := s.pos, history := [], time := 0, naccepted := 0 }

/-- A fresh sampler at initial position `p`. -/
def initSampler (p : σ) : PSampler σ :=
  { pos := p, history := [], time := 0, naccepted := 0 }

/-- Every finite ACL value the loop can hold is at least 1 (the invariant
behind the safety of the final `[::acl]` slice). -/
def AclPos (s : LoopState) : Prop := ∀ a, s.acl = some a → 1 ≤ a

/-! ## Helper lemmas -/

/-- `npCeil` agrees with Mathlib's ceiling. -/
theorem npCeil_eq_ceil (q : ℚ) : npCeil q = ⌈q⌉ := by
  have h : Rat.floor (-q) = ⌊-q⌋ := by rw [Rat.floor_def', Rat.floor_def]
  rw [npCeil, h, Int.floor_neg, neg_neg]

theorem thinAux_length (k : ℕ) (hk : 1 ≤ k) :
    ∀ (l : List α) (c : ℕ),
      (thinAux k c l).length = (l.length - c + k - 1) / k := by
  intro l
  induction l with
  | nil =>
    intro c
    simp only [thinAux, List.length_nil, Nat.zero_sub]
    rw [Nat.div_eq_of_lt (by omega)]
  | cons a t ih =>
    intro c
    match c with
    | 0 =>
      rw [thinAux, List.length_cons, ih (k - 1), List.length_cons]
      have hr : t.length + 1 - 0 + k - 1 = t.length + k := by omega
      rw [hr, Nat.add_div_right _ hk]
      rcases le_or_lt (k - 1) t.length with h | h
      · have h2 : t.length - (k - 1) + k - 1 = t.length := by omega
        rw [h2]
      · have h2 : t.length - (k - 1) + k - 1 = k - 1 := by omega
        rw [h2, Nat.div_eq_of_lt (by omega), Nat.div_eq_of_lt (by omega)]
    | c + 1 =>
      rw [thinAux, ih c, List.length_cons]
      have hr : t.length + 1 - (c + 1) = t.length - c := by omega
      rw [hr]

/-- The number of samples `[::k]` keeps out of `n` is `⌈n / k⌉`, written
`(n + k - 1) / k` in natural-number division. -/
theorem thinEvery_length (k : ℕ) (hk : 1 ≤ k) (l : List α) :
    (thinEvery k l).length = (l.length + k - 1) / k := by
  rw [thinEvery, thinAux_length k hk l 0, Nat.sub_zero]

theorem thinAux_subset (k : ℕ) :
    ∀ (l : List α) (c : ℕ), ∀ x ∈ thinAux k c l, x ∈ l := by
  intro l
  induction l with
  | nil => intro c x hx; simp [thinAux] at hx
  | cons a t ih =>
    intro c x hx
    match c with
    | 0 =>
      rw [thinAux] at hx
      rcases List.mem_cons.mp hx with h | h
      · exact h ▸ List.mem_cons_self _ _
      · exact List.mem_cons_of_mem _ (ih (k - 1) x h)
    | c + 1 =>
      rw [thinAux] at hx
      exact List.mem_cons_of_mem _ (ih c x hx)

/-- Thinning a chain only selects elements of the chain. -/
theorem thinEvery_subset (k : ℕ) (l : List α) (x : α)
    (hx : x ∈ thinEvery k l) : x ∈ l := thinAux_subset k l 0 x hx

/-- A sum of a constantly-`n` map is `length * n`. -/
theorem sum_map_const_of_mem {β : Type} (f : β → ℕ) (n : ℕ) (l : List β)
    (h : ∀ x ∈ l, f x = n) : (l.map f).sum = l.length * n := by
  induction l with
  | nil => simp
  | cons a t ih =>
    simp only [List.map_cons, List.sum_cons, List.length_cons]
    rw [h a (List.mem_cons_self _ _), ih fun x hx => h x (List.mem_cons_of_mem _ hx)]
    ring

/-- Unfolding `allInBounds` as a pointwise condition on coordinates. -/
theorem allInBounds_iff :
    ∀ (x lo hi : List ℚ), x.length = lo.length → hi.length = lo.length →
      (allInBounds x lo hi = true ↔
        ∀ j, j < lo.length →
          lo.getD j 0 ≤ x.getD j 0 ∧ x.getD j 0 ≤ hi.getD j 0)
  | [], lo, hi, hx, _ => by
    simp only [allInBounds]
    rw [List.length_nil] at hx
    simp [← hx]
  | a :: xs, [], hi, hx, hh => by simp at hx
  | a :: xs, l :: ls, [], hx, hh => by simp at hh
  | a :: xs, l :: ls, h :: hs, hx, hh => by
    simp only [allInBounds, Bool.and_eq_true, decide_eq_true_eq]
    have IH := allInBounds_iff xs ls hs
      (by simpa using hx) (by simpa using hh)
    constructor
    · rintro ⟨⟨h1, h2⟩, h3⟩ j hj
      match j with
      | 0 => exact ⟨h1, h2⟩
      | j + 1 =>
        simp only [List.getD_cons_succ]
        exact (IH.mp h3) j (by simpa using hj)
    · intro hall
      refine ⟨by simpa using hall 0 (by simp), IH.mpr ?_⟩
      intro j hj
      have := hall (j + 1) (by simpa using hj)
      simpa using this

theorem sampleN_pos (step : σ → σ) (acc : σ → ℕ) (b : Bool) :
    ∀ (n : ℕ) (s : PSampler σ),
      (sampleN step acc b n s).pos = step^[n] s.pos := by
  intro n
  induction n with
  | zero => intro s; rfl
  | succ n ih =>
    intro s
    rw [sampleN, ih, Function.iterate_succ_apply]
    rfl

theorem sampleN_time (step : σ → σ) (acc : σ → ℕ) (b : Bool) :
    ∀ (n : ℕ) (s : PSampler σ),
      (sampleN step acc b n s).time = s.time + n := by
  intro n
  induction n with
  | zero => intro s; rfl
  | succ n ih =>
    intro s
    rw [sampleN, ih]
    simp [sampleStep]
    omega

theorem sampleN_false_history (step : σ → σ) (acc : σ → ℕ) :
    ∀ (n : ℕ) (s : PSampler σ),
      (sampleN step acc false n s).history = s.history := by
  intro n
  induction n with
  | zero => intro s; rfl
  | succ n ih =>
    intro s
    rw [sampleN, ih]
    rfl

theorem sampleN_true_history (step : σ → σ) (acc : σ → ℕ) :
    ∀ (n : ℕ) (s : PSampler σ),
      (sampleN step acc true n s).history =
        s.history ++ (List.range n).map fun k => step^[k + 1] s.pos := by
  intro n
  induction n with
  | zero => intro s; simp [sampleN]
  | succ n ih =>
    intro s
    rw [sampleN, ih]
    have hstep : (sampleStep step acc true s).history =
        s.history ++ [step s.pos] := rfl
    have hpos : (sampleStep step acc true s).pos = step s.pos := rfl
    rw [hstep, hpos, List.range_succ_eq_map, List.map_cons, List.append_assoc,
      List.singleton_append, List.map_map]
    congr 2

theorem aclPos_loopBody (nburnin nindep : ℕ) (est : ℕ → Option ℚ)
    (s : LoopState) : AclPos (loopBody nburnin nindep est s) := by
  intro a ha
  simp only [loopBody] at ha
  match he : est (s.time + s.nsteps) with
  | none => rw [he] at ha; simp [aclUpdate] at ha
  | some q =>
    rw [he] at ha
    simp only [aclUpdate, Option.some.injEq] at ha
    have h1 : (1 : ℤ) ≤ max 1 (npCeil q) := le_max_left _ _
    omega

theorem aclPos_loopRun (nburnin nindep : ℕ) (est : ℕ → Option ℚ) :
    ∀ (n : ℕ) (s : LoopState), AclPos s →
      AclPos (loopRun nburnin nindep est n s) := by
  intro n
  induction n with
  | zero => intro s hs; exact hs
  | succ n ih =>
    intro s hs
    rw [loopRun]
    by_cases hc : loopCond nindep s
    · rw [if_pos hc]
      exact ih _ (aclPos_loopBody nburnin nindep est s)
    · rw [if_neg hc]
      exact hs

theorem aclPos_init (nburnin nindep : ℕ) :
    AclPos (initLoopState nburnin nindep) := by
  intro a ha
  simp [initLoopState] at ha

/-- A false loop guard forces a finite ACL and a met sample budget. -/
theorem loopCond_false_elim (nindep : ℕ) (s : LoopState)
    (h : loopCond nindep s = false) :
    ∃ a, s.acl = some a ∧ nindep * a ≤ s.time := by
  match hacl : s.acl with
  | none => simp [loopCond, hacl] at h
  | some a =>
    refine ⟨a, rfl, ?_⟩
    simp only [loopCond, hacl, decide_eq_false_iff_not, not_lt] at h
    exact h

/-- `sampler.time` never decreases along the adaptive loop. -/
theorem loopRun_time_mono (nburnin nindep : ℕ) (est : ℕ → Option ℚ) :
    ∀ (n : ℕ) (s : LoopState),
      s.time ≤ (loopRun nburnin nindep est n s).time := by
  intro n
  induction n with
  | zero => intro s; exact le_refl _
  | succ n ih =>
    intro s
    rw [loopRun]
    by_cases hc : loopCond nindep s
    · rw [if_pos hc]
      refine le_trans ?_ (ih (loopBody nburnin nindep est s))
      simp only [loopBody]
      omega
    · rw [if_neg hc]

/-- After `k` executed rounds the round size is `64 * 2^k`. -/
theorem loopBody_iterate_nsteps (nburnin nindep : ℕ) (est : ℕ → Option ℚ) :
    ∀ k, ((loopBody nburnin nindep est)^[k]
        (initLoopState nburnin nindep)).nsteps = 64 * 2 ^ k := by
  intro k
  induction k with
  | zero => rfl
  | succ k ih =>
    rw [Function.iterate_succ_apply']
    show ((loopBody nburnin nindep est)^[k]
        (initLoopState nburnin nindep)).nsteps * 2 = 64 * 2 ^ (k + 1)
    rw [ih]
    ring

/-! ## Claim theorems -/

/-- C1: the adaptive loop's guard holds exactly when the ACL estimate is
non-finite or `sampler.time < nindep * acl`; in particular, while the ACL
is non-finite the loop always executes another round — it cannot terminate
there, regardless of how many iterations have elapsed. -/
theorem loop_repeats_while_acl_unknown (nburnin nindep n : ℕ)
    (est : ℕ → Option ℚ) (s : LoopState) :
    (loopCond nindep s = true ↔
      s.acl = none ∨ ∃ a, s.acl = some a ∧ s.time < nindep * a) ∧
    (s.acl = none →
      loopRun nburnin nindep est (n + 1) s =
        loopRun nburnin nindep est n (loopBody nburnin nindep est s)) := by
  constructor
  · match hacl : s.acl with
    | none => simp [loopCond, hacl]
    | some a => simp [loopCond, hacl]
  · intro h
    rw [loopRun, if_pos]
    simp [loopCond, h]

/-- C1 witness: at the initial state (ACL = NaN) the guard is true. -/
theorem loop_repeats_while_acl_unknown_witness :
    loopCond 200 (initLoopState 500 200) = true :=
  ((loop_repeats_while_acl_unknown 500 200 0 (fun _ => none)
    (initLoopState 500 200)).1).mpr (Or.inl rfl)

/-- C4: after each ACL recomputation, a finite raw estimate `q` is stored
as `max(1, ⌈q⌉)` (rounded up to the nearest integer and floored at 1; the
`ℕ` representation is exact since the value is ≥ 1), while a non-finite
estimate is kept as-is (non-finite). -/
theorem acl_recompute_rounding (nburnin nindep : ℕ) (est : ℕ → Option ℚ)
    (s : LoopState) :
    (∀ q, est (s.time + s.nsteps) = some q →
      (loopBody nburnin nindep est s).acl = some (max 1 ⌈q⌉).toNat ∧
      ((max 1 ⌈q⌉).toNat : ℤ) = max 1 ⌈q⌉) ∧
    (est (s.time + s.nsteps) = none →
      (loopBody nburnin nindep est s).acl = none) := by
  refine ⟨fun q hq => ⟨?_, ?_⟩, fun hq => ?_⟩
  · simp [loopBody, aclUpdate, hq, npCeil_eq_ceil]
  · have h1 : (1 : ℤ) ≤ max 1 ⌈q⌉ := le_max_left _ _
    omega
  · simp [loopBody, aclUpdate, hq]

/-- C4 witness: a raw estimate of 5/2 is stored as the integer 3. -/
theorem acl_recompute_rounding_witness :
    (loopBody 500 200 (fun _ => some (Rat.mk' 5 2 (by decide) (by decide)))
      (initLoopState 500 200)).acl = some 3 := by
  have h := ((acl_recompute_rounding 500 200
    (fun _ => some (Rat.mk' 5 2 (by decide) (by decide)))
    (initLoopState 500 200)).1 (Rat.mk' 5 2 (by decide) (by decide)) rfl).1
  rw [h, ← npCeil_eq_ceil]
  decide

/-- C5: the round size starts at 64, exactly doubles after every round
(so it is `64 * 2^k` after `k` rounds and strictly increases), and the
cumulative post-burn-in iteration count never decreases along the loop. -/
theorem nsteps_geometric_growth (nburnin nindep n k : ℕ)
    (est : ℕ → Option ℚ) (s : LoopState) :
    (initLoopState nburnin nindep).nsteps = 64 ∧
    (loopBody nburnin nindep est s).nsteps = 2 * s.nsteps ∧
    (0 < s.nsteps → s.nsteps < (loopBody nburnin nindep est s).nsteps) ∧
    ((loopBody nburnin nindep est)^[k]
        (initLoopState nburnin nindep)).nsteps = 64 * 2 ^ k ∧
    s.time ≤ (loopRun nburnin nindep est n s).time := by
  refine ⟨rfl, ?_, ?_, loopBody_iterate_nsteps nburnin nindep est k,
    loopRun_time_mono nburnin nindep est n s⟩
  · show s.nsteps * 2 = 2 * s.nsteps
    ring
  · intro hpos
    show s.nsteps < s.nsteps * 2
    omega

/-- C5 witness: at the initial state, one round doubles nsteps from 64 to
128 and does not decrease the time. -/
theorem nsteps_geometric_growth_witness :
    (initLoopState 500 200).nsteps = 64 ∧
    (loopBody 500 200 (fun _ => none) (initLoopState 500 200)).nsteps
      = 2 * (initLoopState 500 200).nsteps ∧
    ((initLoopState 500 200).nsteps <
      (loopBody 500 200 (fun _ => none) (initLoopState 500 200)).nsteps) ∧
    ((loopBody 500 200 (fun _ => none))^[1]
        (initLoopState 500 200)).nsteps = 64 * 2 ^ 1 ∧
    (initLoopState 500 200).time ≤
      (loopRun 500 200 (fun _ => none) 3 (initLoopState 500 200)).time := by
  have h := nsteps_geometric_growth 500 200 3 1 (fun _ => none)
    (initLoopState 500 200)
  exact ⟨h.1, h.2.1, h.2.2.1 (by decide), h.2.2.2.1, h.2.2.2.2⟩

/-- C6 (amended): before each round the progress total is revised to
`nburnin + max(time + nsteps, nindep * acl)` when the previous ACL is
finite; when it is still NaN, Python's `max` keeps its first argument
(every comparison against NaN is false), so the total becomes
`nburnin + time + nsteps` — the budget term is dropped, not treated as
`nindep * 1`. -/
theorem progress_total_revision (nburnin nindep : ℕ) (est : ℕ → Option ℚ)
    (s : LoopState) :
    (∀ a, s.acl = some a →
      (loopBody nburnin nindep est s).total
        = nburnin + max (s.time + s.nsteps) (nindep * a)) ∧
    (s.acl = none →
      (loopBody nburnin nindep est s).total
        = nburnin + (s.time + s.nsteps)) := by
  constructor
  · intro a ha
    simp [loopBody, pyMax, ha]
  · intro ha
    simp [loopBody, pyMax, ha]

/-- C6 witness: with a finite previous ACL of 2 the revised total takes
the genuine maximum. -/
theorem progress_total_revision_witness :
    (loopBody 500 200 (fun _ => none)
        { time := 100, nsteps := 64, acl := some 2, total := 0 }).total
      = 500 + max (100 + 64) (200 * 2) :=
  (progress_total_revision 500 200 (fun _ => none)
    { time := 100, nsteps := 64, acl := some 2, total := 0 }).1 2 rfl

/-- C6 counterexample: on the first round (ACL still NaN) with the default
`nindep = 200`, `nburnin = 500`, the code sets the total to
`500 + (0 + 64) = 564`, whereas the claimed fallback formula
`nburnin + max(time + nsteps, nindep * 1)` gives 700. -/
theorem progress_total_nan_counterexample :
    (loopBody 500 200 (fun _ => none) (initLoopState 500 200)).total = 564 ∧
    500 + max (0 + 64) (200 * 1) = 700 ∧ (564 : ℕ) ≠ 700 :=
  ⟨by decide, by decide, by decide⟩

/-- C7 (amended): the setup phase runs no configuration validation:
it fails before sampling exactly when `hi` cannot broadcast against the
`ndim` inferred from `lo` (length neither `ndim` nor 1); any `nindep` and
`nburnin`, including non-positive and negative ones, are accepted. -/
theorem ez_setup_failure_modes (nindep nburnin : ℤ) (lo hi : List ℚ)
    (nw : Option ℕ) :
    (ezSetup nindep nburnin lo hi nw).isOk = true ↔
      hi.length = lo.length ∨ hi.length = 1 := by
  by_cases h : hi.length = lo.length ∨ hi.length = 1
  · simp only [ezSetup, if_pos h]
    exact iff_of_true rfl h
  · simp only [ezSetup, if_neg h]
    refine iff_of_false ?_ h
    intro hok
    simp [Except.isOk, Except.toBool] at hok

/-- C7 witness: a well-formed configuration sets up successfully. -/
theorem ez_setup_failure_modes_witness :
    (ezSetup 200 500 [(0 : ℚ)] [(1 : ℚ)] none).isOk = true :=
  (ez_setup_failure_modes 200 500 [(0 : ℚ)] [(1 : ℚ)] none).mpr (Or.inl rfl)

/-- C7 counterexample: with non-positive `nindep = 0`, and likewise with
negative `nburnin = -1`, the setup succeeds — there is no fail-fast
validation before sampling begins. -/
theorem ez_setup_no_validation :
    (ezSetup 0 500 [(0 : ℚ)] [(1 : ℚ)] none).isOk = true ∧
    (ezSetup 200 (-1) [(0 : ℚ)] [(1 : ℚ)] none).isOk = true :=
  ⟨rfl, rfl⟩

/-- C2: when the adaptive loop exits, the coldest-temperature chain,
thinned with stride `acl` and flattened across walkers, has exactly
`nwalkers * ⌈time/acl⌉` rows, at least `nindep * nwalkers` rows, and every
row has exactly `ndim` columns. -/
theorem returned_chain_shape (nburnin nindep n nwalkers ndim : ℕ)
    (est : ℕ → Option ℚ) (s : LoopState) (a : ℕ)
    (coldChain : List (List (List ℚ)))
    (hrun : loopRun nburnin nindep est n (initLoopState nburnin nindep) = s)
    (hexit : loopCond nindep s = false)
    (hacl : s.acl = some a)
    (hW : coldChain.length = nwalkers)
    (hiter : ∀ w ∈ coldChain, w.length = s.time)
    (hrow : ∀ w ∈ coldChain, ∀ r ∈ w, r.length = ndim) :
    (extractChain coldChain a).length = nwalkers * ((s.time + a - 1) / a) ∧
    nindep * nwalkers ≤ (extractChain coldChain a).length ∧
    ∀ r ∈ extractChain coldChain a, r.length = ndim := by
  have hpos : 1 ≤ a := by
    have hinv := aclPos_loopRun nburnin nindep est n _
      (aclPos_init nburnin nindep)
    rw [hrun] at hinv
    exact hinv a hacl
  obtain ⟨a2, ha2, hle⟩ := loopCond_false_elim nindep s hexit
  rw [hacl] at ha2
  obtain rfl : a = a2 := Option.some.inj ha2
  have hlen : (extractChain coldChain a).length
      = nwalkers * ((s.time + a - 1) / a) := by
    rw [extractChain, List.length_flatten, List.map_map,
      sum_map_const_of_mem _ ((s.time + a - 1) / a) _
        (fun w hw => by
          show (thinEvery a w).length = (s.time + a - 1) / a
          rw [thinEvery_length a hpos, hiter w hw]),
      hW]
  refine ⟨hlen, ?_, ?_⟩
  · rw [hlen]
    have hdiv : nindep ≤ (s.time + a - 1) / a := by
      rw [Nat.le_div_iff_mul_le hpos]
      omega
    calc nindep * nwalkers = nwalkers * nindep := by ring
      _ ≤ nwalkers * ((s.time + a - 1) / a) := Nat.mul_le_mul_left _ hdiv
  · intro r hr
    rw [extractChain] at hr
    obtain ⟨tw, htw, hrtw⟩ := List.mem_flatten.mp hr
    obtain ⟨w, hw, rfl⟩ := List.mem_map.mp htw
    exact hrow w hw r (thinEvery_subset a w r hrtw)

/-- C2 witness: a terminating run with `nindep = 1` and a unit ACL, on a
2-walker, 64-iteration, 1-dimensional chain. -/
theorem returned_chain_shape_witness :
    (extractChain (List.replicate 2 (List.replicate 64 [(0 : ℚ)])) 1).length
        = 2 * ((64 + 1 - 1) / 1) ∧
    1 * 2 ≤ (extractChain
        (List.replicate 2 (List.replicate 64 [(0 : ℚ)])) 1).length ∧
    ∀ r ∈ extractChain (List.replicate 2 (List.replicate 64 [(0 : ℚ)])) 1,
      r.length = 1 :=
  returned_chain_shape 0 1 2 2 1 (fun _ => some 1)
    { time := 64, nsteps := 128, acl := some 1, total := 64 } 1
    (List.replicate 2 (List.replicate 64 [(0 : ℚ)]))
    (by decide) (by decide) rfl (by decide) (by decide) (by decide)

/-- C9: whenever the loop exits, the ACL in force is a finite integer
≥ 1 — so the final `[::acl]` slice has a well-defined positive step — and
thinning any per-walker chain of `time` iterations keeps exactly
`⌈time/acl⌉` of them. -/
theorem exit_stride_wellformed (nburnin nindep n : ℕ)
    (est : ℕ → Option ℚ) (s : LoopState)
    (hrun : loopRun nburnin nindep est n (initLoopState nburnin nindep) = s)
    (hexit : loopCond nindep s = false) :
    ∃ a, s.acl = some a ∧ 1 ≤ a ∧
      ∀ w : List (List ℚ), w.length = s.time →
        (thinEvery a w).length = (s.time + a - 1) / a := by
  obtain ⟨a, hacl, hle⟩ := loopCond_false_elim nindep s hexit
  have hpos : 1 ≤ a := by
    have hinv := aclPos_loopRun nburnin nindep est n _
      (aclPos_init nburnin nindep)
    rw [hrun] at hinv
    exact hinv a hacl
  exact ⟨a, hacl, hpos, fun w hw => by rw [thinEvery_length a hpos, hw]⟩

/-- C9 witness: a terminating run whose final ACL is 2, applied to one
64-iteration walker chain. -/
theorem exit_stride_wellformed_witness :
    (thinEvery 2 (List.replicate 64 [(0 : ℚ)])).length = (64 + 2 - 1) / 2 := by
  obtain ⟨a, ha, hpos, hthin⟩ := exit_stride_wellformed 0 1 2
    (fun _ => some 2) { time := 64, nsteps := 128, acl := some 2, total := 64 }
    (by decide) (by decide)
  obtain rfl : a = 2 := (Option.some.inj ha).symm
  exact hthin (List.replicate 64 [(0 : ℚ)]) (by decide)

/-- C3: on well-formed numeric input the box prior is evaluated row-wise
(one output per row, each depending only on its own row), yielding `0.0`
exactly when every coordinate lies inclusively within its bounds and
`-inf` exactly otherwise. -/
theorem logp_box_prior (x : List (List ℚ)) (lo hi : List ℚ)
    (hx : ∀ row ∈ x, row.length = lo.length)
    (hh : hi.length = lo.length) :
    (logp x lo hi).length = x.length ∧
    (∀ i, i < x.length →
      (logp x lo hi).getD i .negInf = logpRow (x.getD i []) lo hi) ∧
    ∀ row ∈ x,
      ((logpRow row lo hi = .val 0) ↔
        ∀ j, j < lo.length →
          lo.getD j 0 ≤ row.getD j 0 ∧ row.getD j 0 ≤ hi.getD j 0) ∧
      ((logpRow row lo hi = .negInf) ↔
        ¬ ∀ j, j < lo.length →
          lo.getD j 0 ≤ row.getD j 0 ∧ row.getD j 0 ≤ hi.getD j 0) := by
  refine ⟨by simp [logp], fun i hi2 => ?_, fun row hrow => ?_⟩
  · rw [logp, List.getD_eq_getElem _ _ (by simpa using hi2),
      List.getElem_map, List.getD_eq_getElem _ _ hi2]
  · have hiff := allInBounds_iff row lo hi (hx row hrow) hh
    by_cases hb : allInBounds row lo hi
    · have hv : logpRow row lo hi = .val 0 := by rw [logpRow, if_pos hb]
      rw [hv]
      exact ⟨iff_of_true rfl (hiff.mp hb),
        iff_of_false (by simp) (not_not_intro (hiff.mp hb))⟩
    · have hv : logpRow row lo hi = .negInf := by rw [logpRow, if_neg hb]
      rw [hv]
      exact ⟨iff_of_false (by simp) (fun hall => hb (hiff.mpr hall)),
        iff_of_true rfl (fun hall => hb (hiff.mpr hall))⟩

/-- C3 witness: in the box `[0, 1]`, the row `[5]` is rejected with
`-inf`. -/
theorem logp_box_prior_witness :
    logpRow [(5 : ℚ)] [0] [1] = LogPVal.negInf := by
  have h := logp_box_prior [[(0 : ℚ)], [(5 : ℚ)]] [0] [1]
    (by decide) (by decide)
  exact ((h.2.2 [(5 : ℚ)] (by decide)).2).mpr (by decide)

/-- C10: in zero dimensions (empty `lo` and `hi`, every row empty) the box
prior accepts every row with `0.0`: the conjunction over the empty last
axis is vacuously true. -/
theorem logp_zero_dims (x : List (List ℚ)) (hrow : ∀ row ∈ x, row = []) :
    (∀ v ∈ logp x [] [], v = .val 0) ∧ (logp x [] []).length = x.length := by
  refine ⟨fun v hv => ?_, by simp [logp]⟩
  obtain ⟨row, hr, rfl⟩ := List.mem_map.mp hv
  rw [hrow row hr]
  rfl

/-- C10 witness: a two-row zero-dimensional batch maps to `0.0`. -/
theorem logp_zero_dims_witness :
    (logp [[], []] [] []).getD 0 LogPVal.negInf = LogPVal.val 0 := by
  have h := logp_zero_dims [[], []] (by decide)
  exact h.1 _ (by decide)

/-- C8: burn-in advances the ensemble for exactly `nburnin` iterations with
history retention disabled (the history is untouched and the position is
the `nburnin`-fold image of the start); the reset then discards all history
and acceptance counters while keeping the post-burn-in position; and every
entry of the subsequently retained history is generated from the post-reset
position, so no burn-in iteration contributes to the returned chain. -/
theorem burnin_reset_frame {σ : Type} (step : σ → σ) (acc : σ → ℕ)
    (nburnin m : ℕ) (s0 : PSampler σ) :
    (sampleN step acc false nburnin s0).history = s0.history ∧
    (sampleN step acc false nburnin s0).pos = step^[nburnin] s0.pos ∧
    (sampleN step acc false nburnin s0).time = s0.time + nburnin ∧
    (samplerReset (sampleN step acc false nburnin s0)).history = [] ∧
    (samplerReset (sampleN step acc false nburnin s0)).time = 0 ∧
    (samplerReset (sampleN step acc false nburnin s0)).naccepted = 0 ∧
    (samplerReset (sampleN step acc false nburnin s0)).pos
      = (sampleN step acc false nburnin s0).pos ∧
    (sampleN step acc true m
        (samplerReset (sampleN step acc false nburnin s0))).history
      = (List.range m).map
          (fun k => step^[k + 1] (sampleN step acc false nburnin s0).pos) := by
  refine ⟨sampleN_false_history step acc nburnin s0,
    sampleN_pos step acc false nburnin s0,
    sampleN_time step acc false nburnin s0, rfl, rfl, rfl, rfl, ?_⟩
  rw [sampleN_true_history]
  simp [samplerReset]

end LigoSkymap
